import Mathlib

/-!
Verification of the KOICA project-appraisal core pipeline.

Shallow embedding of the repository's core modules:
* `core/auditor.py`   — chunker (`_split_text`), vector-store construction
  (`create_vector_store`), section scoring (`analyze_policy_alignment`,
  `analyze_implementation_readiness`, `_parse_and_validate_response`,
  `_create_audit_evidence`) and the orchestrator (`conduct_audit`);
* `core/vector_store.py` — `SimpleVectorStore` (`add_texts`,
  `similarity_search`, `_cosine_similarity`);
* `core/models.py` — `AuditEvidence` (`__post_init__`, `to_dict`,
  `create_failed`);
* `config.py` — the constants the core reads.

Python machine-level conventions used throughout the embedding: Python
integers are `ℤ` (or `ℕ` where the source value is provably non-negative),
Python floats are modelled as exact rationals/reals, a Python function that
can raise is an `Except`/`Option`, and external calls (embedding provider,
generative model) are oracles passed in as parameters.
-/

namespace KOICA

/-! ### Configuration constants (`config.py`, class `RAGConfig` / `AuditConfig`) -/

def CHUNK_SIZE : ℤ := 1500
def CHUNK_OVERLAP : ℤ := 200
def EMBEDDING_DIMENSION : ℕ := 768
def POLICY_ALIGNMENT_MAX_SCORE : ℤ := 30
def IMPLEMENTATION_READINESS_MAX_SCORE : ℤ := 70

/-! ### Chunker (`core/auditor.py`, `KOICAAuditorStreamlit._split_text`)

The Python loop is

```
chunks = []; start = 0; text_length = len(text)
while start < text_length:
    end = start + chunk_size
    chunk = text[start:end]
    chunks.append(chunk)
    start = end - overlap
return chunks
```

`start` is a Python `int` (it can go negative when `overlap > chunk_size`),
so it is embedded as `ℤ`.  The loop need not terminate, so the embedding is
fuel-indexed: `none` means the fuel ran out, i.e. the source loop has not
finished within that many iterations. -/

/-- Python slice index normalisation: a negative index counts from the end,
and indices are clamped to `[0, len]`. -/
def pyIdx (len : ℕ) (i : ℤ) : ℕ :=
  if i < 0 then ((len : ℤ) + i).toNat else min i.toNat len

/-- Python slice `t[a:b]` on a list of characters. -/
def pySlice (t : List Char) (a b : ℤ) : List Char :=
  (t.take (pyIdx t.length b)).drop (pyIdx t.length a)

/-- The `while start < text_length` loop of `_split_text`, fuel-indexed.
`none` means the loop has not terminated after `fuel` iterations. -/
def splitTextGo (cs ov : ℤ) (t : List Char) :
    ℕ → ℤ → List (List Char) → Option (List (List Char))
  | fuel, start, acc =>
    if start < (t.length : ℤ) then
      match fuel with
      | 0 => none
      | f + 1 =>
        splitTextGo cs ov t f (start + cs - ov) (acc ++ [pySlice t start (start + cs)])
    else some acc

/-- `KOICAAuditorStreamlit._split_text(text, chunk_size, overlap)`. -/
def splitText (t : List Char) (cs ov : ℤ) (fuel : ℕ) : Option (List (List Char)) :=
  splitTextGo cs ov t fuel 0 []

/-- Total variant of the chunking loop for a strictly positive step
`step = chunk_size - overlap`: the list of chunks produced from offset
`start` onwards.  Related to the fuel-indexed source embedding by
`splitTextGo_eq_chunksFrom`. -/
def chunksFrom (t : List Char) (cs step : ℕ) (start : ℕ) : List (List Char) :=
  if _h : start < t.length ∧ 0 < step then
    (t.drop start).take cs :: chunksFrom t cs step (start + step)
  else []
termination_by t.length - start
decreasing_by omega

/-- With `overlap >= chunk_size`, the loop variable never advances past the
text length, so the source loop runs forever: the fuel-indexed embedding
diverges at every fuel. -/
theorem splitTextGo_none_of_le (cs ov : ℤ) (t : List Char) (hov : cs ≤ ov) :
    ∀ (fuel : ℕ) (start : ℤ) (acc : List (List Char)),
      start < (t.length : ℤ) → splitTextGo cs ov t fuel start acc = none := by
  intro fuel
  induction fuel with
  | zero =>
    intro start acc hs
    rw [splitTextGo]
    simp [hs]
  | succ f ih =>
    intro start acc hs
    rw [splitTextGo]
    simp only [hs, if_pos]
    exact ih _ _ (by omega)

/-- Unfolding lemma for `chunksFrom` in the looping case. -/
theorem chunksFrom_of_lt (t : List Char) (cs step : ℕ) (start : ℕ)
    (h1 : start < t.length) (h2 : 0 < step) :
    chunksFrom t cs step start =
      (t.drop start).take cs :: chunksFrom t cs step (start + step) := by
  rw [chunksFrom]
  simp [h1, h2]

/-- Unfolding lemma for `chunksFrom` once the loop guard fails. -/
theorem chunksFrom_of_ge (t : List Char) (cs step : ℕ) (start : ℕ)
    (h1 : t.length ≤ start) : chunksFrom t cs step start = [] := by
  rw [chunksFrom, dif_neg (by omega)]

/-- A Python slice `t[start:start+cs]` at a non-negative offset is
`(t.drop start).take cs`. -/
theorem pySlice_nonneg (t : List Char) (start cs : ℕ) :
    pySlice t (start : ℤ) ((start : ℤ) + (cs : ℤ)) = (t.drop start).take cs := by
  unfold pySlice pyIdx
  have h1 : ¬ ((start : ℤ) < 0) := by omega
  have h2 : ¬ ((start : ℤ) + (cs : ℤ) < 0) := by omega
  simp only [h1, if_false, h2]
  have h3 : ((start : ℤ) + (cs : ℤ)).toNat = start + cs := by omega
  have h4 : (start : ℤ).toNat = start := by omega
  rw [h3, h4]
  rcases Nat.le_total start t.length with hle | hle
  · have : t.take (min (start + cs) t.length) = t.take (start + cs) := by
      rw [List.take_eq_take]
      omega
    rw [this, Nat.min_eq_left hle, List.drop_take]
    congr 1
    omega
  · rw [Nat.min_eq_right hle]
    have hdrop : (t.take (min (start + cs) t.length)).drop t.length = [] := by
      apply List.drop_eq_nil_of_le
      rw [List.length_take]
      omega
    have hdrop2 : t.drop start = [] := List.drop_eq_nil_of_le hle
    rw [hdrop, hdrop2, List.take_nil]

/-- For a valid configuration (`0 ≤ overlap < chunk_size`), the fuel-indexed
source loop terminates within `len(text)` iterations and produces exactly the
chunks described by `chunksFrom` with step `chunk_size - overlap`. -/
theorem splitTextGo_eq_chunksFrom (cs ov : ℤ) (t : List Char)
    (h0 : 0 ≤ ov) (h1 : ov < cs) :
    ∀ (fuel : ℕ) (start : ℕ) (acc : List (List Char)),
      t.length - start ≤ fuel →
      splitTextGo cs ov t fuel (start : ℤ) acc =
        some (acc ++ chunksFrom t cs.toNat (cs.toNat - ov.toNat) start) := by
  intro fuel
  induction fuel with
  | zero =>
    intro start acc hfuel
    have hge : t.length ≤ start := by omega
    rw [splitTextGo]
    have : ¬ ((start : ℤ) < (t.length : ℤ)) := by omega
    simp only [this, if_false]
    rw [chunksFrom_of_ge t _ _ _ hge, List.append_nil]
  | succ f ih =>
    intro start acc hfuel
    rw [splitTextGo]
    by_cases hlt : (start : ℤ) < (t.length : ℤ)
    · simp only [hlt, if_pos]
      have hstep : 0 < cs.toNat - ov.toNat := by omega
      have hlt' : start < t.length := by omega
      have harg : (start : ℤ) + cs - ov = ((start + (cs.toNat - ov.toNat) : ℕ) : ℤ) := by
        push_cast
        omega
      have hslice : pySlice t (start : ℤ) ((start : ℤ) + cs) =
          (t.drop start).take cs.toNat := by
        have : (start : ℤ) + cs = (start : ℤ) + (cs.toNat : ℤ) := by omega
        rw [this, pySlice_nonneg]
      rw [harg, hslice, ih (start + (cs.toNat - ov.toNat)) _ (by omega)]
      rw [chunksFrom_of_lt t _ _ _ hlt' hstep]
      simp
    · simp only [hlt, if_false]
      have hge : t.length ≤ start := by omega
      rw [chunksFrom_of_ge t _ _ _ hge, List.append_nil]

/-- Length characterisation of the produced chunks: from offset `start`, the
`i`-th chunk exists exactly when its start offset `start + i*step` is still
inside the text (the loop guard `start < text_length`). -/
theorem chunksFrom_length_iff (t : List Char) (cs step : ℕ) (hstep : 0 < step) :
    ∀ (start : ℕ) (i : ℕ),
      i < (chunksFrom t cs step start).length ↔ start + i * step < t.length := by
  suffices H : ∀ (n start : ℕ), t.length - start ≤ n → ∀ i,
      i < (chunksFrom t cs step start).length ↔ start + i * step < t.length by
    exact fun start i => H (t.length - start) start le_rfl i
  intro n
  induction n with
  | zero =>
    intro start hn i
    rw [chunksFrom_of_ge t cs step start (by omega)]
    simp only [List.length_nil]
    omega
  | succ m ih =>
    intro start hn i
    by_cases hlt : start < t.length
    · rw [chunksFrom_of_lt t cs step start hlt hstep]
      cases i with
      | zero =>
        simpa using hlt
      | succ j =>
        have hrec := ih (start + step) (by omega) j
        simp only [List.length_cons, Nat.succ_lt_succ_iff]
        rw [hrec]
        have e : (j + 1) * step = j * step + step := Nat.succ_mul j step
        omega
    · rw [chunksFrom_of_ge t cs step start (by omega)]
      simp only [List.length_nil]
      omega

/-- Element characterisation: the `i`-th chunk from offset `start` is the
Python slice `text[start + i*step : start + i*step + cs]`. -/
theorem chunksFrom_get (t : List Char) (cs step : ℕ) (hstep : 0 < step) :
    ∀ (start : ℕ) (i : ℕ) (h : i < (chunksFrom t cs step start).length),
      (chunksFrom t cs step start).get ⟨i, h⟩ =
        (t.drop (start + i * step)).take cs := by
  suffices H : ∀ (n start : ℕ), t.length - start ≤ n →
      ∀ (i : ℕ) (h : i < (chunksFrom t cs step start).length),
        (chunksFrom t cs step start).get ⟨i, h⟩ =
          (t.drop (start + i * step)).take cs by
    exact fun start i h => H (t.length - start) start le_rfl i h
  intro n
  induction n with
  | zero =>
    intro start hn i h
    rw [chunksFrom_of_ge t cs step start (by omega)] at h
    simp at h
  | succ m ih =>
    intro start hn i h
    by_cases hlt : start < t.length
    · have hcons := chunksFrom_of_lt t cs step start hlt hstep
      rcases i with _ | j
      · rw [List.get_of_eq hcons]
        simp
      · have hj : j < (chunksFrom t cs step (start + step)).length := by
          have h' := h
          rw [hcons] at h'
          simpa using h'
        rw [List.get_of_eq hcons]
        simp only [List.get_cons_succ]
        rw [ih (start + step) (by omega) j hj]
        congr 2
        ring
    · exfalso
      rw [chunksFrom_of_ge t cs step start (by omega)] at h
      simp at h

/-- Every chunk produced by the loop is a `take cs`, so never longer than
`chunk_size`. -/
theorem chunksFrom_mem_length_le (t : List Char) (cs step : ℕ) (hstep : 0 < step)
    (start : ℕ) : ∀ c ∈ chunksFrom t cs step start, c.length ≤ cs := by
  intro c hc
  rcases List.mem_iff_get.mp hc with ⟨⟨i, hi⟩, rfl⟩
  rw [chunksFrom_get t cs step hstep start i hi, List.length_take]
  omega

/-- C2: the source `_split_text` contains no `overlap >= chunk_size` check at
all: under such a configuration on a non-empty text the loop variable never
advances past the text length, so the code loops forever (the fuel-indexed
embedding diverges at every fuel) instead of raising a configuration error. -/
theorem splitText_diverges_of_overlap_ge (cs ov : ℤ) (t : List Char)
    (hov : cs ≤ ov) (ht : t ≠ []) :
    ∀ fuel : ℕ, splitText t cs ov fuel = none := by
  intro fuel
  have hlen : 0 < t.length := List.length_pos.mpr ht
  exact splitTextGo_none_of_le cs ov t hov fuel 0 [] (by exact_mod_cast hlen)

/-- Witness for `splitText_diverges_of_overlap_ge`: the concrete failing input
`_split_text("ab", chunk_size=3, overlap=3)` makes no progress in 5 loop
iterations. -/
theorem splitText_diverges_witness :
    (3 : ℤ) ≤ 3 ∧ (['a', 'b'] : List Char) ≠ [] ∧
      splitText ['a', 'b'] 3 3 5 = none :=
  ⟨le_refl 3, by decide,
    splitText_diverges_of_overlap_ge 3 3 ['a', 'b'] (le_refl 3) (by decide) 5⟩

/-- C3: for a valid configuration `0 ≤ overlap < chunk_size`, `_split_text`
terminates (within `len(text)` iterations) and produces exactly the chunks
`text[i*step : i*step + chunk_size]` for `i*step < len(text)` where
`step = chunk_size - overlap`; every character offset lies inside at least
one chunk, no chunk exceeds `chunk_size` characters, and the empty text
yields no chunks. -/
theorem splitText_valid_config_spec (t : List Char) (cs ov : ℤ)
    (h0 : 0 ≤ ov) (h1 : ov < cs) :
    ∃ chunks : List (List Char),
      splitText t cs ov t.length = some chunks ∧
      (∀ i : ℕ, i < chunks.length ↔ i * (cs.toNat - ov.toNat) < t.length) ∧
      (∀ (i : ℕ) (h : i < chunks.length),
        chunks.get ⟨i, h⟩ = (t.drop (i * (cs.toNat - ov.toNat))).take cs.toNat) ∧
      (∀ p : ℕ, p < t.length → ∃ (i : ℕ) (h : i < chunks.length),
        i * (cs.toNat - ov.toNat) ≤ p ∧
        p - i * (cs.toNat - ov.toNat) < (chunks.get ⟨i, h⟩).length) ∧
      (∀ c ∈ chunks, c.length ≤ cs.toNat) ∧
      (t = [] → chunks = []) := by
  have hstep : 0 < cs.toNat - ov.toNat := by omega
  refine ⟨chunksFrom t cs.toNat (cs.toNat - ov.toNat) 0, ?_, ?_, ?_, ?_, ?_, ?_⟩
  · have := splitTextGo_eq_chunksFrom cs ov t h0 h1 t.length 0 [] (by omega)
    simpa [splitText] using this
  · intro i
    have := chunksFrom_length_iff t cs.toNat (cs.toNat - ov.toNat) hstep 0 i
    simpa using this
  · intro i h
    have := chunksFrom_get t cs.toNat (cs.toNat - ov.toNat) hstep 0 i h
    simpa using this
  · intro p hp
    set step := cs.toNat - ov.toNat with hstepdef
    refine ⟨p / step, ?_, ?_, ?_⟩
    · rw [chunksFrom_length_iff t cs.toNat step hstep 0 (p / step)]
      have hmod := Nat.mod_add_div p step
      have e : p / step * step = step * (p / step) := Nat.mul_comm _ _
      omega
    · have hmod := Nat.mod_add_div p step
      have e : p / step * step = step * (p / step) := Nat.mul_comm _ _
      omega
    · rw [chunksFrom_get t cs.toNat step hstep 0 (p / step)]
      rw [List.length_take, List.length_drop]
      have hmod := Nat.mod_add_div p step
      have hmodlt : p % step < step := Nat.mod_lt _ hstep
      have e : p / step * step = step * (p / step) := Nat.mul_comm _ _
      omega
  · exact chunksFrom_mem_length_le t cs.toNat (cs.toNat - ov.toNat) hstep 0
  · intro ht
    subst ht
    exact chunksFrom_of_ge [] cs.toNat (cs.toNat - ov.toNat) 0 (by simp)

/-- Witness for `splitText_valid_config_spec` at the concrete input
`_split_text("abcde", chunk_size=3, overlap=1)`. -/
theorem splitText_valid_config_witness :
    (0 : ℤ) ≤ 1 ∧ (1 : ℤ) < 3 ∧
      ∃ chunks : List (List Char),
        splitText ['a', 'b', 'c', 'd', 'e'] 3 1 5 = some chunks ∧
        ∀ c ∈ chunks, c.length ≤ 3 := by
  refine ⟨by decide, by decide, ?_⟩
  obtain ⟨chunks, h1, -, -, -, h5, -⟩ :=
    splitText_valid_config_spec ['a', 'b', 'c', 'd', 'e'] 3 1 (by decide) (by decide)
  exact ⟨chunks, h1, h5⟩

/-! ### Data model (`core/models.py`, dataclass `AuditEvidence`)

Scores are Python ints (`ℤ`); `percentage` is a Python float, modelled as an
exact rational.  `detailed_scores` holds the per-sub-item dictionaries
`{item, score, max_score, reason}` produced by the LLM. -/

/-- One entry of `detailed_scores`. -/
structure DetailItem where
  item : String
  score : ℤ
  maxScore : ℤ
  reason : String
deriving DecidableEq

/-- The `AuditEvidence` dataclass fields. -/
structure AuditEvidence where
  score : ℤ
  max_score : ℤ
  percentage : ℚ
  detailed_scores : List DetailItem
  reasoning : String
  strengths : List String
  weaknesses : List String
  recommendations : List String
deriving DecidableEq

/-- Constructing an `AuditEvidence` runs `__post_init__`, which raises
`ValueError` (the `Except.error` case) when the score or the percentage is
out of range. -/
def mkAuditEvidence (score max_score : ℤ) (percentage : ℚ)
    (detailed_scores : List DetailItem) (reasoning : String)
    (strengths weaknesses recommendations : List String) :
    Except String AuditEvidence :=
  if score < 0 ∨ max_score < score then
    .error ("점수는 0과 " ++ toString max_score ++ " 사이여야 합니다.")
  else if percentage < 0 ∨ 100 < percentage then
    .error "백분율은 0과 100 사이여야 합니다."
  else
    .ok ⟨score, max_score, percentage, detailed_scores, reasoning,
         strengths, weaknesses, recommendations⟩

/-- `AuditEvidence.to_dict`: the returned dictionary holds exactly the eight
fields, modelled as the tuple of field values in dictionary order. -/
def toDict (e : AuditEvidence) :
    ℤ × ℤ × ℚ × List DetailItem × String × List String × List String × List String :=
  (e.score, e.max_score, e.percentage, e.detailed_scores, e.reasoning,
   e.strengths, e.weaknesses, e.recommendations)

/-- `AuditEvidence.create_failed(max_score, error_message)`. -/
def createFailed (max_score : ℤ) (error_message : String) :
    Except String AuditEvidence :=
  mkAuditEvidence 0 max_score 0 [] ("분석 실패: " ++ error_message) [] [] []

/-- C6: constructing an `AuditEvidence` fails exactly when
`s < 0 ∨ s > m ∨ p < 0 ∨ p > 100`, and on success `to_dict` recovers exactly
the constructed fields. -/
theorem mkAuditEvidence_spec (s m : ℤ) (p : ℚ) (ds : List DetailItem)
    (r : String) (st wk rc : List String) :
    ((∃ msg, mkAuditEvidence s m p ds r st wk rc = .error msg) ↔
      (s < 0 ∨ s > m ∨ p < 0 ∨ p > 100)) ∧
    (∀ e, mkAuditEvidence s m p ds r st wk rc = .ok e →
      toDict e = (s, m, p, ds, r, st, wk, rc)) := by
  constructor
  · constructor
    · rintro ⟨msg, hmsg⟩
      unfold mkAuditEvidence at hmsg
      split_ifs at hmsg with h1 h2
      · rcases h1 with h | h
        · exact Or.inl h
        · exact Or.inr (Or.inl h)
      · rcases h2 with h | h
        · exact Or.inr (Or.inr (Or.inl h))
        · exact Or.inr (Or.inr (Or.inr h))
    · intro hcon
      unfold mkAuditEvidence
      by_cases h1 : s < 0 ∨ m < s
      · rw [if_pos h1]
        exact ⟨_, rfl⟩
      · have h2 : p < 0 ∨ 100 < p := by
          rcases hcon with h | h | h | h
          · exact absurd (Or.inl h) h1
          · exact absurd (Or.inr h) h1
          · exact Or.inl h
          · exact Or.inr h
        rw [if_neg h1, if_pos h2]
        exact ⟨_, rfl⟩
  · intro e he
    unfold mkAuditEvidence at he
    split_ifs at he with h1 h2
    injection he with h
    subst h
    rfl

/-- Witness for `mkAuditEvidence_spec`: the in-range instance
`AuditEvidence(score=5, max_score=10, percentage=50.0, ...)` is constructed
and round-trips through `to_dict`. -/
theorem mkAuditEvidence_witness :
    toDict ⟨5, 10, 50, [], "r", [], [], []⟩ = (5, 10, 50, [], "r", [], [], []) ∧
    ¬ ((5 : ℤ) < 0 ∨ (5 : ℤ) > 10 ∨ (50 : ℚ) < 0 ∨ (50 : ℚ) > 100) :=
  ⟨(mkAuditEvidence_spec 5 10 50 [] "r" [] [] []).2 ⟨5, 10, 50, [], "r", [], [], []⟩
      rfl,
    by norm_num⟩

/-! ### Percentage computation (`core/auditor.py`,
`KOICAAuditorStreamlit._create_audit_evidence`)

The source computes `round(score / max_score * 100, 1) if max_score > 0 else
0.0`.  Python's `round` rounds half to even (banker's rounding); floats are
modelled as exact rationals. -/

/-- Round a rational to the nearest integer, ties to even
(Python `round(x)`). -/
def roundHalfEven (q : ℚ) : ℤ :=
  if q - (⌊q⌋ : ℚ) < 1 / 2 then ⌊q⌋
  else if 1 / 2 < q - (⌊q⌋ : ℚ) then ⌊q⌋ + 1
  else if ⌊q⌋ % 2 = 0 then ⌊q⌋ else ⌊q⌋ + 1

/-- Python `round(x, 1)`: round to one decimal place. -/
def round1 (q : ℚ) : ℚ := (roundHalfEven (q * 10) : ℚ) / 10

/-- The percentage computed by `_create_audit_evidence`:
`round(score / max_score * 100, 1) if max_score > 0 else 0.0`. -/
def pct (score max_score : ℤ) : ℚ :=
  if 0 < max_score then round1 ((score : ℚ) / (max_score : ℚ) * 100) else 0

/-- `roundHalfEven` is within a half of its argument. -/
theorem roundHalfEven_close (q : ℚ) : |q - (roundHalfEven q : ℚ)| ≤ 1 / 2 := by
  unfold roundHalfEven
  have h0 : (0 : ℚ) ≤ q - (⌊q⌋ : ℚ) := by
    have := Int.floor_le q
    linarith
  have h1 : q - (⌊q⌋ : ℚ) < 1 := by
    have := Int.lt_floor_add_one q
    linarith
  split_ifs with ha hb hc
  · rw [abs_le]
    constructor <;> linarith
  · rw [abs_le]
    push_cast
    constructor <;> linarith
  · rw [abs_le]
    constructor <;> [linarith [not_lt.mp hb]; linarith [not_lt.mp ha]]
  · rw [abs_le]
    push_cast
    constructor <;> [linarith [not_lt.mp hb]; linarith [not_lt.mp ha]]

/-! ### LLM responses and evidence construction (`core/auditor.py`)

A parsed JSON response object is modelled by its relevant top-level keys;
`none` means the key is absent (`result.get(key, default)` /
`key not in result`). -/

/-- A parsed LLM JSON response (a Python dict), restricted to the keys the
auditor reads. -/
structure RespJson where
  total_score : Option ℤ
  detailed_scores : Option (List DetailItem)
  reasoning : Option String
  strengths : Option (List String)
  weaknesses : Option (List String)
  recommendations : Option (List String)
deriving DecidableEq

/-- Outcome of one `generate_content` call as seen by an analyze method:
the call raised, the response text was not valid JSON (`json.JSONDecodeError`),
or it parsed to a JSON object. -/
inductive LLMResp where
  | exn (msg : String)
  | badJson (msg : String)
  | json (j : RespJson)

/-- `KOICAAuditorStreamlit._parse_and_validate_response` with
`required_keys=['total_score', 'detailed_scores']`: raises `KeyError` on the
first missing required key. -/
def parseAndValidate (j : RespJson) : Except String RespJson :=
  if j.total_score.isNone then
    .error "필수 키 total_score가 응답에 없습니다"
  else if j.detailed_scores.isNone then
    .error "필수 키 detailed_scores가 응답에 없습니다"
  else
    .ok j

/-- `KOICAAuditorStreamlit._create_audit_evidence(result, max_score)`:
builds the `AuditEvidence`, whose `__post_init__` may raise. -/
def createAuditEvidence (j : RespJson) (max_score : ℤ) :
    Except String AuditEvidence :=
  mkAuditEvidence (j.total_score.getD 0) max_score
    (pct (j.total_score.getD 0) max_score)
    (j.detailed_scores.getD []) (j.reasoning.getD "")
    (j.strengths.getD []) (j.weaknesses.getD []) (j.recommendations.getD [])

/-- C8: the evidence percentage is `score/max_score*100` rounded to one
decimal place with a single consistent rule (half-to-even): it is an integer
multiple of `1/10` within `1/20` of the exact ratio; a zero `max_score`
yields percentage `0` instead of a division error; and a policy response
with `total_score` 25 against `max_score` 30 yields percentage `83.3`. -/
theorem createAuditEvidence_percentage_spec (s m : ℤ) (j : RespJson) :
    (0 < m → (∃ z : ℤ, pct s m = (z : ℚ) / 10) ∧
      |pct s m - (s : ℚ) / (m : ℚ) * 100| ≤ 1 / 20) ∧
    pct s 0 = 0 ∧
    (j.total_score = some 25 →
      ∃ ev, createAuditEvidence j 30 = .ok ev ∧ ev.percentage = 833 / 10) := by
  refine ⟨fun hm => ⟨?_, ?_⟩, ?_, fun hts => ?_⟩
  · exact ⟨roundHalfEven ((s : ℚ) / (m : ℚ) * 100 * 10), by rw [pct, if_pos hm, round1]⟩
  · rw [pct, if_pos hm, round1]
    have h := roundHalfEven_close ((s : ℚ) / (m : ℚ) * 100 * 10)
    set x : ℚ := (s : ℚ) / (m : ℚ) * 100 with hx
    have e : (roundHalfEven (x * 10) : ℚ) / 10 - x =
        ((roundHalfEven (x * 10) : ℚ) - x * 10) / 10 := by ring
    rw [e, abs_div]
    rw [abs_sub_comm] at h
    have : |(10 : ℚ)| = 10 := by norm_num
    rw [this]
    linarith
  · rw [pct]
    norm_num
  · have hpct : pct 25 30 = 833 / 10 := by
      have hx : (((25 : ℤ) : ℚ)) / (((30 : ℤ) : ℚ)) * 100 = 250 / 3 := by norm_num
      rw [pct, if_pos (by norm_num), round1, hx]
      have hfl : ⌊(250 / 3 * 10 : ℚ)⌋ = 833 := by
        rw [Int.floor_eq_iff]
        norm_num
      rw [roundHalfEven, hfl]
      norm_num
    refine ⟨⟨25, 30, 833 / 10, j.detailed_scores.getD [], j.reasoning.getD "",
      j.strengths.getD [], j.weaknesses.getD [], j.recommendations.getD []⟩, ?_, rfl⟩
    rw [createAuditEvidence, hts]
    show mkAuditEvidence 25 30 (pct 25 30) _ _ _ _ _ = _
    rw [hpct, mkAuditEvidence, if_neg (by norm_num), if_neg (by norm_num)]

/-- Witness for `createAuditEvidence_percentage_spec` at the end-to-end
scenario input: a response with `total_score = 25` scored against the policy
section maximum 30. -/
theorem createAuditEvidence_percentage_witness :
    (0 : ℤ) < 30 ∧ (∃ z : ℤ, pct 25 30 = (z : ℚ) / 10) ∧
      ∃ ev, createAuditEvidence ⟨some 25, some [], none, none, none, none⟩ 30 = .ok ev ∧
        ev.percentage = 833 / 10 := by
  have h := createAuditEvidence_percentage_spec 25 30 ⟨some 25, some [], none, none, none, none⟩
  exact ⟨by norm_num, (h.1 (by norm_num)).1, h.2.2 rfl⟩

/-! ### Vector store (`core/vector_store.py`, class `SimpleVectorStore`)

The store holds parallel lists of chunk texts and embeddings.  Embedding
vectors are Python float lists, modelled over a field `α` (instantiated at
`ℝ` for cosine similarity).  The external `genai.embed_content` call is an
oracle `emb : String → Option (List α)`: `none` means the call raised or
returned an unusable shape, which the source replaces by an all-zero vector
of dimension `EMBEDDING_DIMENSION` (for documents) without interrupting the
loop. -/

/-- The state of a `SimpleVectorStore`: parallel `chunks` / `embeddings`. -/
structure VStore (α : Type) where
  chunks : List String
  embeddings : List (List α)

/-- The zero-vector fallback `[0.0] * RAGConfig.EMBEDDING_DIMENSION`. -/
def zeroVec : List ℝ := List.replicate EMBEDDING_DIMENSION 0

/-- `SimpleVectorStore.add_texts(texts)`: sets `self.chunks = texts` and then
appends one embedding per text to `self.embeddings` (a failed embedding is
the zero vector).  Note the source assigns `chunks` but only appends to
`embeddings`; it never clears the previous embeddings. -/
def addTexts (emb : String → Option (List ℝ)) (s : VStore ℝ) (texts : List String) :
    VStore ℝ :=
  { chunks := texts,
    embeddings := s.embeddings ++ texts.map (fun t => (emb t).getD zeroVec) }

/-- The freshly constructed store `SimpleVectorStore(api_key)`. -/
def emptyStore : VStore ℝ := ⟨[], []⟩

/-- C1 counterexample: calling `add_texts` twice does not replace the
embeddings, so with a non-empty first call the alignment
`len(chunks) == len(embeddings)` is broken: after `add_texts(["a"])` then
`add_texts(["b", "c"])` the store holds 2 chunks but 3 embeddings. -/
theorem addTexts_twice_misaligned :
    ¬ ((addTexts (fun _ => none) (addTexts (fun _ => none) emptyStore ["a"])
          ["b", "c"]).chunks.length =
        (addTexts (fun _ => none) (addTexts (fun _ => none) emptyStore ["a"])
          ["b", "c"]).embeddings.length) := by
  simp [addTexts, emptyStore]

/-- C1 (amended): `add_texts` replaces `chunks` with exactly the given texts
and appends one embedding per text, a failed embedding contributing the
all-zero vector of dimension 768 (never a missing entry).  Hence on a store
whose embeddings are empty — in particular a freshly constructed store —
`len(chunks) == len(embeddings)` holds after population even when every
embedding call fails.  The general length law shows the accumulation: a
second call appends to `embeddings` instead of replacing them. -/
theorem addTexts_spec (emb : String → Option (List ℝ)) (s : VStore ℝ)
    (texts : List String) :
    (addTexts emb s texts).chunks = texts ∧
    (addTexts emb s texts).embeddings.length = s.embeddings.length + texts.length ∧
    (s.embeddings = [] →
      (addTexts emb s texts).chunks.length = (addTexts emb s texts).embeddings.length) ∧
    (∀ (i : ℕ) (h : i < texts.length), emb texts[i] = none →
      (addTexts emb s texts).embeddings[s.embeddings.length + i]? = some zeroVec) ∧
    zeroVec.length = 768 := by
  have hzv : zeroVec.length = 768 := by
    show (List.replicate EMBEDDING_DIMENSION (0 : ℝ)).length = 768
    rw [List.length_replicate]
    rfl
  refine ⟨rfl, by simp [addTexts], ?_, ?_, hzv⟩
  · intro h
    simp [addTexts, h]
  · intro i h hemb
    show (s.embeddings ++ texts.map fun t => (emb t).getD zeroVec)[s.embeddings.length + i]? =
      some zeroVec
    rw [List.getElem?_append_right (by omega)]
    have e : s.embeddings.length + i - s.embeddings.length = i := by omega
    rw [e, List.getElem?_map, List.getElem?_eq_getElem h]
    simp [hemb]

/-- Witness for `addTexts_spec`: populating a fresh store with two texts
under an embedding oracle that always fails still yields aligned state. -/
theorem addTexts_spec_witness :
    emptyStore.embeddings = [] ∧
      (addTexts (fun _ => none) emptyStore ["a", "b"]).chunks.length =
        (addTexts (fun _ => none) emptyStore ["a", "b"]).embeddings.length ∧
      (addTexts (fun _ => none) emptyStore ["a", "b"]).embeddings[0]? = some zeroVec := by
  have h := addTexts_spec (fun _ => none) emptyStore ["a", "b"]
  exact ⟨rfl, h.2.2.1 rfl, h.2.2.2.1 0 (by norm_num) rfl⟩

/-! ### Cosine similarity (`core/vector_store.py`,
`SimpleVectorStore._cosine_similarity`)

`np.dot` of two equal-length 1-D arrays is the sum of pointwise products;
`np.linalg.norm` is the square root of the self dot product.  The source
returns `0.0` when either norm is zero, and its catch-all handler returns
`0.0` when the dot product raises (which `np.dot` does on a length
mismatch). -/

/-- Pointwise dot product of two float lists (`np.dot` on 1-D arrays). -/
def dotp (a b : List ℝ) : ℝ := (List.zipWith (· * ·) a b).sum

/-- `np.linalg.norm`. -/
noncomputable def norm2 (a : List ℝ) : ℝ := Real.sqrt (dotp a a)

/-- `SimpleVectorStore._cosine_similarity(vec1, vec2)`: `0.0` when either
norm is zero; otherwise `dot/(norm1*norm2)`, except that a length mismatch
makes `np.dot` raise, which the catch-all turns into `0.0` as well. -/
noncomputable def cosineSim (a b : List ℝ) : ℝ :=
  if norm2 a = 0 ∨ norm2 b = 0 then 0
  else if a.length = b.length then dotp a b / (norm2 a * norm2 b)
  else 0

/-- The dot product as a finite sum over the common index range. -/
theorem dotp_eq_sum (a b : List ℝ) :
    dotp a b = ∑ i ∈ Finset.range (min a.length b.length), a.getD i 0 * b.getD i 0 := by
  induction a generalizing b with
  | nil => simp [dotp]
  | cons x a ih =>
    cases b with
    | nil => simp [dotp]
    | cons y b =>
      have hmin : min (x :: a).length (y :: b).length = min a.length b.length + 1 := by
        simp [Nat.succ_min_succ]
      rw [hmin, Finset.sum_range_succ']
      have htail : ∀ i : ℕ, (x :: a).getD (i + 1) 0 * (y :: b).getD (i + 1) 0 =
          a.getD i 0 * b.getD i 0 := by
        intro i
        simp
      simp only [htail]
      rw [← ih b]
      simp [dotp]
      ring

/-- The self dot product is the sum of squares. -/
theorem dotp_self_eq (a : List ℝ) :
    dotp a a = ∑ i ∈ Finset.range a.length, a.getD i 0 ^ 2 := by
  rw [dotp_eq_sum]
  simp [sq]

/-- The self dot product is non-negative. -/
theorem dotp_self_nonneg (a : List ℝ) : 0 ≤ dotp a a := by
  rw [dotp_self_eq]
  exact Finset.sum_nonneg fun i _ => sq_nonneg _

/-- Cauchy-Schwarz for list dot products (truncation only shrinks the
right-hand side). -/
theorem dotp_sq_le (a b : List ℝ) : dotp a b ^ 2 ≤ dotp a a * dotp b b := by
  rw [dotp_eq_sum a b, dotp_self_eq a, dotp_self_eq b]
  have hcs := Finset.sum_mul_sq_le_sq_mul_sq
    (Finset.range (min a.length b.length)) (fun i => a.getD i 0) (fun i => b.getD i 0)
  refine hcs.trans (mul_le_mul ?_ ?_ ?_ ?_)
  · exact Finset.sum_le_sum_of_subset_of_nonneg
      (Finset.range_subset.mpr (Nat.min_le_left _ _)) (fun i _ _ => sq_nonneg _)
  · exact Finset.sum_le_sum_of_subset_of_nonneg
      (Finset.range_subset.mpr (Nat.min_le_right _ _)) (fun i _ _ => sq_nonneg _)
  · exact Finset.sum_nonneg fun i _ => sq_nonneg _
  · exact Finset.sum_nonneg fun i _ => sq_nonneg _

/-- C5: the cosine similarity equals `dot/(norm*norm)` on the regular path,
always lies in `[-1, 1]`, is exactly `0` when either argument has zero norm —
in particular an all-zero vector scores `0` against anything — and equals `1`
for any nonzero vector with itself. -/
theorem cosineSim_spec (a b : List ℝ) :
    (-1 ≤ cosineSim a b ∧ cosineSim a b ≤ 1) ∧
    (norm2 a = 0 ∨ norm2 b = 0 → cosineSim a b = 0) ∧
    ((∀ x ∈ a, x = 0) → ∀ c, cosineSim a c = 0) ∧
    ((∃ x ∈ a, x ≠ 0) → cosineSim a a = 1) ∧
    (¬(norm2 a = 0 ∨ norm2 b = 0) → a.length = b.length →
      cosineSim a b = dotp a b / (norm2 a * norm2 b)) := by
  have hposdot : ∀ c : List ℝ, (∃ x ∈ c, x ≠ 0) → 0 < dotp c c := by
    intro c hc
    obtain ⟨x, hx, hxne⟩ := hc
    obtain ⟨i, hi, hgi⟩ := List.mem_iff_getElem.mp hx
    rw [dotp_self_eq]
    apply Finset.sum_pos' (fun j _ => sq_nonneg _)
    refine ⟨i, Finset.mem_range.mpr hi, ?_⟩
    have : c.getD i 0 = x := by
      rw [List.getD_eq_getElem c 0 hi, hgi]
    rw [this]
    positivity
  refine ⟨?_, ?_, ?_, ?_, ?_⟩
  · unfold cosineSim
    split_ifs with h1 h2
    · norm_num
    · have hn1 : 0 < norm2 a := lt_of_le_of_ne (Real.sqrt_nonneg _) (by
        intro h
        exact h1 (Or.inl h.symm))
      have hn2 : 0 < norm2 b := lt_of_le_of_ne (Real.sqrt_nonneg _) (by
        intro h
        exact h1 (Or.inr h.symm))
      have hpos : 0 < norm2 a * norm2 b := mul_pos hn1 hn2
      have hsq : dotp a b ^ 2 ≤ (norm2 a * norm2 b) ^ 2 := by
        have e : (norm2 a * norm2 b) ^ 2 = dotp a a * dotp b b := by
          rw [mul_pow]
          unfold norm2
          rw [Real.sq_sqrt (dotp_self_nonneg a), Real.sq_sqrt (dotp_self_nonneg b)]
        rw [e]
        exact dotp_sq_le a b
      have habs : -(norm2 a * norm2 b) ≤ dotp a b ∧ dotp a b ≤ norm2 a * norm2 b := by
        constructor <;> nlinarith [sq_nonneg (dotp a b - norm2 a * norm2 b),
          sq_nonneg (dotp a b + norm2 a * norm2 b)]
      constructor
      · rw [le_div_iff₀ hpos]
        linarith [habs.1]
      · rw [div_le_one hpos]
        exact habs.2
    · norm_num
  · intro h
    unfold cosineSim
    rw [if_pos h]
  · intro hz c
    have hd : dotp a a = 0 := by
      rw [dotp_self_eq]
      apply Finset.sum_eq_zero
      intro i hi
      have : a.getD i 0 = 0 := by
        rcases Nat.lt_or_ge i a.length with h | h
        · rw [List.getD_eq_getElem a 0 h]
          exact hz _ (List.getElem_mem h)
        · rw [List.getD_eq_default]
          omega
      rw [this]
      norm_num
    have hn : norm2 a = 0 := by
      unfold norm2
      rw [hd, Real.sqrt_zero]
    unfold cosineSim
    rw [if_pos (Or.inl hn)]
  · intro hne
    have hd : 0 < dotp a a := hposdot a hne
    have hn : norm2 a ≠ 0 := by
      unfold norm2
      intro h
      rw [Real.sqrt_eq_zero (dotp_self_nonneg a)] at h
      exact absurd h (ne_of_gt hd)
    unfold cosineSim
    rw [if_neg (by tauto), if_pos rfl]
    unfold norm2
    rw [Real.mul_self_sqrt (dotp_self_nonneg a)]
    exact div_self (ne_of_gt hd)
  · intro h1 h2
    unfold cosineSim
    rw [if_neg h1, if_pos h2]

/-- Witness for `cosineSim_spec` at concrete vectors: the unit vector is
maximally similar to itself and the zero vector scores zero. -/
theorem cosineSim_witness :
    cosineSim [(1 : ℝ), 0] [(1 : ℝ), 0] = 1 ∧
      cosineSim [(0 : ℝ), 0] [(3 : ℝ), 4] = 0 ∧
      cosineSim [(1 : ℝ), 2] [(3 : ℝ), 4] ≤ 1 := by
  refine ⟨?_, ?_, ?_⟩
  · exact (cosineSim_spec [(1 : ℝ), 0] [(1 : ℝ), 0]).2.2.2.1
      ⟨1, by simp, one_ne_zero⟩
  · exact (cosineSim_spec [(0 : ℝ), 0] [(3 : ℝ), 4]).2.2.1
      (by intro x hx; simpa using hx) [(3 : ℝ), 4]
  · exact (cosineSim_spec [(1 : ℝ), 2] [(3 : ℝ), 4]).1.2

/-! ### Similarity search (`core/vector_store.py`,
`SimpleVectorStore.similarity_search`)

The source enumerates `(idx, cosine)` pairs and sorts them with
`similarities.sort(key=lambda x: x[1], reverse=True)` — CPython's stable
descending sort, so equal similarities keep their original (ascending-index)
order.  This is embedded as `mergeSort` under the total preorder `simLe`
"higher similarity first, ties by original index": on pairs with distinct
indices this order pins the unique result of any stable descending sort.
The query embedding outcome is an oracle: `none` models a raised
`embed_content` call or an unusable response shape (both fall back to
`chunks[:k]`), and the source also treats an empty (falsy) query embedding
as that fallback.  The search is generic in the similarity values and the
scoring function; claims about cosine scoring instantiate `sim` with a
cosine function. -/

/-- The Boolean "sorts before or equal" relation of the stable descending
sort: higher similarity first, ties broken by original chunk index. -/
def simLe {α : Type} [LinearOrder α] (a b : ℕ × α) : Bool :=
  decide (b.2 < a.2 ∨ (a.2 = b.2 ∧ a.1 ≤ b.1))

/-- The strict ordering a stable descending sort guarantees between distinct
entries: strictly higher similarity, or equal similarity and strictly
smaller original index. -/
def simRel {α : Type} [LinearOrder α] (a b : ℕ × α) : Prop :=
  b.2 < a.2 ∨ (a.2 = b.2 ∧ a.1 < b.1)

/-- The `(idx, similarity)` pairs built by the scoring loop
(`for idx, doc_embedding in enumerate(self.embeddings)`). -/
def simPairs {α : Type} (sim : List α → List α → α) (q : List α)
    (embs : List (List α)) : List (ℕ × α) :=
  embs.enum.map (fun p => (p.1, sim q p.2))

/-- `SimpleVectorStore.similarity_search(query, k)`.  `qe` is the outcome of
embedding the query: `none` (or an empty vector) yields the positional
fallback `chunks[:k]`; an empty store short-circuits to `[]`. -/
def similaritySearch {α : Type} [LinearOrder α] (sim : List α → List α → α)
    (store : VStore α) (qe : Option (List α)) (k : ℕ) : List String :=
  if store.embeddings = [] then []
  else
    match qe with
    | none => store.chunks.take k
    | some q =>
      if q = [] then store.chunks.take k
      else
        (((simPairs sim q store.embeddings).mergeSort simLe).take k).map
          (fun p => store.chunks.getD p.1 "")

/-- `simLe` is transitive. -/
theorem simLe_trans {α : Type} [LinearOrder α] (a b c : ℕ × α) :
    simLe a b → simLe b c → simLe a c := by
  simp only [simLe, decide_eq_true_eq]
  rintro (hab | ⟨hab, hab'⟩) (hbc | ⟨hbc, hbc'⟩)
  · exact Or.inl (lt_trans hbc hab)
  · exact Or.inl (hbc ▸ hab)
  · exact Or.inl (hab ▸ hbc)
  · exact Or.inr ⟨hab.trans hbc, hab'.trans hbc'⟩

/-- `simLe` is total. -/
theorem simLe_total {α : Type} [LinearOrder α] (a b : ℕ × α) :
    simLe a b || simLe b a := by
  simp only [simLe, Bool.or_eq_true, decide_eq_true_eq]
  rcases lt_trichotomy a.2 b.2 with h | h | h
  · exact Or.inr (Or.inl h)
  · rcases Nat.le_total a.1 b.1 with h' | h'
    · exact Or.inl (Or.inr ⟨h, h'⟩)
    · exact Or.inr (Or.inr ⟨h.symm, h'⟩)
  · exact Or.inl (Or.inl h)

/-- The index components of `simPairs` are the positions `0, 1, ...`, hence
pairwise distinct. -/
theorem simPairs_pairwise_ne {α : Type} (sim : List α → List α → α) (q : List α)
    (embs : List (List α)) :
    (simPairs sim q embs).Pairwise (fun a b => a.1 ≠ b.1) := by
  have hlen : (simPairs sim q embs).length = embs.length := by
    simp [simPairs]
  rw [List.pairwise_iff_getElem]
  intro i j hi hj hij
  have hi' : i < embs.length := by omega
  have hj' : j < embs.length := by omega
  have hgeti : (simPairs sim q embs)[i] = (i, sim q embs[i]) := by
    simp [simPairs]
  have hgetj : (simPairs sim q embs)[j] = (j, sim q embs[j]) := by
    simp [simPairs]
  rw [hgeti, hgetj]
  simp only []
  omega

/-- `simRel` is vacuously antisymmetric (it is irreflexive and strict). -/
theorem simRel_antisymm {α : Type} [LinearOrder α] (a b : ℕ × α)
    (hab : simRel a b) (hba : simRel b a) : a = b := by
  exfalso
  rcases hab with h | ⟨h, h'⟩ <;> rcases hba with g | ⟨g, g'⟩
  · exact lt_asymm h g
  · exact absurd (g ▸ h) (lt_irrefl _)
  · exact absurd (h ▸ g) (lt_irrefl _)
  · omega

/-- Generic form of the search characterisation, for any similarity scoring
function over a linearly ordered value type. -/
theorem similaritySearch_sorted_spec {α : Type} [LinearOrder α]
    (sim : List α → List α → α) (store : VStore α) (k : ℕ)
    (hne : store.embeddings ≠ []) :
    (∀ q : List α, q ≠ [] →
      ∃ l : List (ℕ × α),
        l.Perm (simPairs sim q store.embeddings) ∧
        l.Pairwise simRel ∧
        (∀ l' : List (ℕ × α), l'.Perm (simPairs sim q store.embeddings) →
          l'.Pairwise simRel → l' = l) ∧
        similaritySearch sim store (some q) k =
          (l.take k).map (fun p => store.chunks.getD p.1 "")) ∧
    similaritySearch sim store none k = store.chunks.take k := by
  constructor
  · intro q hq
    refine ⟨(simPairs sim q store.embeddings).mergeSort simLe, ?_, ?_, ?_, ?_⟩
    · exact List.mergeSort_perm _ _
    · have hsorted := List.sorted_mergeSort
        (fun a b c => simLe_trans a b c) (fun a b => simLe_total a b)
        (simPairs sim q store.embeddings)
      have hperm : ((simPairs sim q store.embeddings).mergeSort simLe).Perm
          (simPairs sim q store.embeddings) := List.mergeSort_perm _ _
      have hnedup : ((simPairs sim q store.embeddings).mergeSort simLe).Pairwise
          (fun a b => a.1 ≠ b.1) := by
        refine (List.Perm.pairwise_iff ?_ hperm).mpr
          (simPairs_pairwise_ne sim q store.embeddings)
        intro x y h
        exact h.symm
      refine (hsorted.and hnedup).imp ?_
      rintro a b ⟨h1, h2⟩
      have h1' : b.2 < a.2 ∨ (a.2 = b.2 ∧ a.1 ≤ b.1) := by
        simpa [simLe] using h1
      rcases h1' with h | ⟨he, hle⟩
      · exact Or.inl h
      · exact Or.inr ⟨he, lt_of_le_of_ne hle h2⟩
    · intro l' hperm' hsorted'
      haveI : IsAntisymm (ℕ × α) simRel := ⟨simRel_antisymm⟩
      have hperm : l'.Perm ((simPairs sim q store.embeddings).mergeSort simLe) :=
        hperm'.trans (List.mergeSort_perm _ _).symm
      refine List.eq_of_perm_of_sorted hperm hsorted' ?_
      -- sortedness of the mergeSort output, upgraded to the strict relation
      have hsorted := List.sorted_mergeSort
        (fun a b c => simLe_trans a b c) (fun a b => simLe_total a b)
        (simPairs sim q store.embeddings)
      have hnedup : ((simPairs sim q store.embeddings).mergeSort simLe).Pairwise
          (fun a b => a.1 ≠ b.1) := by
        refine (List.Perm.pairwise_iff ?_ (List.mergeSort_perm _ _)).mpr
          (simPairs_pairwise_ne sim q store.embeddings)
        intro x y h
        exact h.symm
      refine (hsorted.and hnedup).imp ?_
      rintro a b ⟨h1, h2⟩
      have h1' : b.2 < a.2 ∨ (a.2 = b.2 ∧ a.1 ≤ b.1) := by
        simpa [simLe] using h1
      rcases h1' with h | ⟨he, hle⟩
      · exact Or.inl h
      · exact Or.inr ⟨he, lt_of_le_of_ne hle h2⟩
    · unfold similaritySearch
      rw [if_neg hne]
      dsimp only
      rw [if_neg hq]
  · unfold similaritySearch
    rw [if_neg hne]

/-- C4: on a populated store with a successfully embedded non-empty query,
`similarity_search` returns the texts of the first `k` entries of the unique
reordering of the `(index, cosine similarity)` pairs that is sorted by
similarity descending with ties broken by ascending original index —
uniqueness is the determinism of the stable sort, so repeated calls with a
fixed store and query embedding return the same chunks in the same order —
and on a query-embedding failure it returns the first `k` chunks in
original order. -/
theorem similaritySearch_cosine_spec (store : VStore ℝ) (k : ℕ)
    (hne : store.embeddings ≠ []) :
    (∀ q : List ℝ, q ≠ [] →
      ∃ l : List (ℕ × ℝ),
        l.Perm (simPairs cosineSim q store.embeddings) ∧
        l.Pairwise simRel ∧
        (∀ l' : List (ℕ × ℝ), l'.Perm (simPairs cosineSim q store.embeddings) →
          l'.Pairwise simRel → l' = l) ∧
        similaritySearch cosineSim store (some q) k =
          (l.take k).map (fun p => store.chunks.getD p.1 "")) ∧
    similaritySearch cosineSim store none k = store.chunks.take k :=
  similaritySearch_sorted_spec cosineSim store k hne

/-- Witness for `similaritySearch_cosine_spec` on a concrete two-chunk
store. -/
theorem similaritySearch_cosine_witness :
    ((⟨["a", "b"], [[1], [2]]⟩ : VStore ℝ).embeddings ≠ []) ∧
      similaritySearch cosineSim ⟨["a", "b"], [[1], [2]]⟩ none 3 = ["a", "b"] ∧
      ∃ l : List (ℕ × ℝ),
        l.Perm (simPairs cosineSim [1] [[1], [2]]) ∧
        l.Pairwise simRel ∧
        (∀ l' : List (ℕ × ℝ), l'.Perm (simPairs cosineSim [1] [[1], [2]]) →
          l'.Pairwise simRel → l' = l) ∧
        similaritySearch cosineSim ⟨["a", "b"], [[1], [2]]⟩ (some [1]) 3 =
          (l.take 3).map (fun p => (["a", "b"] : List String).getD p.1 "") := by
  have h := similaritySearch_cosine_spec (⟨["a", "b"], [[1], [2]]⟩ : VStore ℝ) 3 (by simp)
  exact ⟨by simp, h.2, h.1 [1] (by simp)⟩

/-- C10: on an index-aligned store `similarity_search` returns exactly
`min k chunk_count` texts on every path (sorted path and both fallbacks),
and a store with no embeddings yields the empty list. -/
theorem similaritySearch_count_spec {α : Type} [LinearOrder α]
    (sim : List α → List α → α) (store : VStore α) (qe : Option (List α)) (k : ℕ) :
    (store.chunks.length = store.embeddings.length →
      (similaritySearch sim store qe k).length = min k store.chunks.length) ∧
    (store.embeddings = [] → similaritySearch sim store qe k = []) := by
  constructor
  · intro halign
    unfold similaritySearch
    by_cases hemb : store.embeddings = []
    · rw [if_pos hemb]
      simp only [List.length_nil]
      rw [halign, hemb]
      simp
    · rw [if_neg hemb]
      match qe with
      | none =>
        simp [List.length_take]
      | some q =>
        by_cases hq : q = []
        · dsimp only
          rw [if_pos hq]
          simp [List.length_take]
        · dsimp only
          rw [if_neg hq]
          rw [List.length_map, List.length_take, List.length_mergeSort]
          have : (simPairs sim q store.embeddings).length = store.embeddings.length := by
            simp [simPairs]
          rw [this, halign]
  · intro hemb
    unfold similaritySearch
    rw [if_pos hemb]

/-- Witness for `similaritySearch_count_spec`: `k = 5` on a two-chunk
aligned store returns exactly two texts, and an empty store returns none. -/
theorem similaritySearch_count_witness :
    (similaritySearch (fun _ _ => (0 : ℚ)) ⟨["a", "b"], [[1], [2]]⟩ (some [1]) 5).length =
      min 5 2 ∧
    similaritySearch (fun _ _ => (0 : ℚ)) ⟨[], []⟩ (some [1]) 5 = [] := by
  constructor
  · exact (similaritySearch_count_spec (fun _ _ => (0 : ℚ))
      (⟨["a", "b"], [[1], [2]]⟩ : VStore ℚ) (some [1]) 5).1 rfl
  · exact (similaritySearch_count_spec (fun _ _ => (0 : ℚ))
      (⟨[], []⟩ : VStore ℚ) (some [1]) 5).2 rfl

/-! ### Section scoring and orchestration (`core/auditor.py`)

`analyze_policy_alignment` / `analyze_implementation_readiness` both follow
the same guarded pipeline: invoke the LLM, parse and validate, build the
evidence, and convert every failure (`json.JSONDecodeError` specifically,
everything else through the catch-all `except Exception`) into
`AuditEvidence.create_failed(max_score, message)`.  The only way an
exception can escape is if `create_failed` itself raises inside the handler
(`Except.error` below). The retrieved context only shapes the prompt, so the
LLM call is abstracted as a response oracle per section. -/

/-- The shared scoring pipeline of `analyze_policy_alignment` and
`analyze_implementation_readiness` after context assembly. -/
def analyzeSection (resp : LLMResp) (max_score : ℤ) : Except String AuditEvidence :=
  match resp with
  | .exn m => createFailed max_score m
  | .badJson m => createFailed max_score ("JSON 파싱 실패: " ++ m)
  | .json j =>
    match parseAndValidate j with
    | .error m => createFailed max_score m
    | .ok j' =>
      match createAuditEvidence j' max_score with
      | .error m => createFailed max_score m
      | .ok ev => .ok ev

/-- The results dictionary built by `conduct_audit` (the fields the claims
concern; timing is external). -/
structure AuditReport where
  total : ℤ
  policy : AuditEvidence
  impl : AuditEvidence
  ragUsed : Bool

/-- `KOICAAuditorStreamlit.create_vector_store(full_text)`: `None` for empty
text or zero chunks, otherwise a freshly populated store.  Chunking uses the
configured `CHUNK_SIZE`/`CHUNK_OVERLAP` (valid, so the total `chunksFrom`
form applies by `splitTextGo_eq_chunksFrom`). -/
def createVectorStore (emb : String → Option (List ℝ)) (full_text : List Char) :
    Option (VStore ℝ) :=
  if full_text = [] then none
  else
    let chunks := (chunksFrom full_text CHUNK_SIZE.toNat
      (CHUNK_SIZE.toNat - CHUNK_OVERLAP.toNat) 0).map (fun c => String.mk c)
    if chunks = [] then none
    else some (addTexts emb emptyStore chunks)

/-- `KOICAAuditorStreamlit.conduct_audit(full_text)`: attempt to build the
store (falling back to `None`), score both sections in order, and assemble
the results dictionary.  `none` models the outer catch-all returning `None`,
reachable only if a section raised. -/
def conductAudit (emb : String → Option (List ℝ)) (resp1 resp2 : LLMResp)
    (full_text : List Char) : Option AuditReport :=
  let vs := createVectorStore emb full_text
  match analyzeSection resp1 POLICY_ALIGNMENT_MAX_SCORE,
      analyzeSection resp2 IMPLEMENTATION_READINESS_MAX_SCORE with
  | .ok p, .ok i => some ⟨p.score + i.score, p, i, vs.isSome⟩
  | _, _ => none

/-- `create_failed` succeeds for any non-negative maximum, yielding the
zero-score evidence that carries the error message in `reasoning`. -/
theorem createFailed_ok (maxS : ℤ) (msg : String) (h : 0 ≤ maxS) :
    createFailed maxS msg =
      .ok ⟨0, maxS, 0, [], "분석 실패: " ++ msg, [], [], []⟩ := by
  unfold createFailed mkAuditEvidence
  rw [if_neg (by omega), if_neg (by norm_num)]

/-- Section scoring is total: every outcome yields an evidence value. -/
theorem analyzeSection_ok (resp : LLMResp) (maxS : ℤ) (h : 0 ≤ maxS) :
    ∃ ev, analyzeSection resp maxS = .ok ev := by
  cases resp with
  | exn m => exact ⟨_, by simp only [analyzeSection]; rw [createFailed_ok _ _ h]⟩
  | badJson m => exact ⟨_, by simp only [analyzeSection]; rw [createFailed_ok _ _ h]⟩
  | json j =>
    simp only [analyzeSection]
    cases hpv : parseAndValidate j with
    | error m =>
      refine ⟨⟨0, maxS, 0, [], "분석 실패: " ++ m, [], [], []⟩, ?_⟩
      dsimp only
      rw [createFailed_ok _ _ h]
    | ok j' =>
      dsimp only
      cases hce : createAuditEvidence j' maxS with
      | error m =>
        refine ⟨⟨0, maxS, 0, [], "분석 실패: " ++ m, [], [], []⟩, ?_⟩
        dsimp only
        rw [createFailed_ok _ _ h]
      | ok ev =>
        exact ⟨ev, rfl⟩

/-- `conduct_audit` always assembles a report from the two section
evidences, with the RAG flag recording whether the store was built. -/
theorem conductAudit_shape (emb : String → Option (List ℝ)) (r1 r2 : LLMResp)
    (text : List Char) :
    ∃ p i, analyzeSection r1 POLICY_ALIGNMENT_MAX_SCORE = .ok p ∧
      analyzeSection r2 IMPLEMENTATION_READINESS_MAX_SCORE = .ok i ∧
      conductAudit emb r1 r2 text =
        some ⟨p.score + i.score, p, i, (createVectorStore emb text).isSome⟩ := by
  obtain ⟨p, hp⟩ := analyzeSection_ok r1 POLICY_ALIGNMENT_MAX_SCORE (by decide)
  obtain ⟨i, hi⟩ := analyzeSection_ok r2 IMPLEMENTATION_READINESS_MAX_SCORE (by decide)
  exact ⟨p, i, hp, hi, by rw [conductAudit, hp, hi]⟩

/-- C7: any failure in LLM invocation, JSON parsing, required-key
validation, or evidence construction yields
`AuditEvidence.create_failed(max_score, message)` — a zero-score evidence
whose reasoning carries the error message — never a propagated exception;
with a malformed response for the policy section, the implementation
section's evidence is whatever its own response yields and the audit still
completes with a report containing both evidences. -/
theorem analyzeSection_failure_contained (m : String) (r2 : LLMResp)
    (emb : String → Option (List ℝ)) (text : List Char) :
    (∀ (resp : LLMResp) (maxS : ℤ), 0 ≤ maxS →
      ∃ ev, analyzeSection resp maxS = .ok ev) ∧
    (∀ (j : RespJson) (maxS : ℤ) (msg : String), 0 ≤ maxS →
      parseAndValidate j = .error msg →
      analyzeSection (.json j) maxS =
        .ok ⟨0, maxS, 0, [], "분석 실패: " ++ msg, [], [], []⟩) ∧
    (∀ (j j' : RespJson) (maxS : ℤ) (msg : String), 0 ≤ maxS →
      parseAndValidate j = .ok j' →
      createAuditEvidence j' maxS = .error msg →
      analyzeSection (.json j) maxS =
        .ok ⟨0, maxS, 0, [], "분석 실패: " ++ msg, [], [], []⟩) ∧
    ∃ evFail ev2 rep,
      analyzeSection (.badJson m) POLICY_ALIGNMENT_MAX_SCORE = .ok evFail ∧
      evFail.score = 0 ∧
      evFail.reasoning = "분석 실패: JSON 파싱 실패: " ++ m ∧
      analyzeSection r2 IMPLEMENTATION_READINESS_MAX_SCORE = .ok ev2 ∧
      conductAudit emb (.badJson m) r2 text = some rep ∧
      rep.policy = evFail ∧ rep.impl = ev2 ∧
      rep.total = evFail.score + ev2.score := by
  refine ⟨analyzeSection_ok, ?_, ?_, ?_⟩
  · intro j maxS msg h hpv
    simp only [analyzeSection]
    rw [hpv]
    dsimp only
    rw [createFailed_ok _ _ h]
  · intro j j' maxS msg h hpv hce
    simp only [analyzeSection]
    rw [hpv]
    dsimp only
    rw [hce]
    dsimp only
    rw [createFailed_ok _ _ h]
  · obtain ⟨p, i, hp, hi, hca⟩ := conductAudit_shape emb (.badJson m) r2 text
    have hpf : analyzeSection (.badJson m) POLICY_ALIGNMENT_MAX_SCORE =
        .ok ⟨0, POLICY_ALIGNMENT_MAX_SCORE, 0, [],
          "분석 실패: " ++ ("JSON 파싱 실패: " ++ m), [], [], []⟩ := by
      simp only [analyzeSection]
      rw [createFailed_ok _ _ (by decide)]
    have hpeq : p = ⟨0, POLICY_ALIGNMENT_MAX_SCORE, 0, [],
        "분석 실패: " ++ ("JSON 파싱 실패: " ++ m), [], [], []⟩ := by
      have := hp.symm.trans hpf
      exact Except.ok.inj this
    refine ⟨p, i, ⟨p.score + i.score, p, i, (createVectorStore emb text).isSome⟩,
      hp, ?_, ?_, hi, hca, rfl, rfl, rfl⟩
    · rw [hpeq]
    · rw [hpeq]
      show "분석 실패: " ++ ("JSON 파싱 실패: " ++ m) =
        "분석 실패: JSON 파싱 실패: " ++ m
      rw [← String.append_assoc]
      congr 1

/-- Witness for `analyzeSection_failure_contained`: a malformed policy
response next to a crashed implementation response still yields a report. -/
theorem analyzeSection_failure_witness :
    ((0 : ℤ) ≤ 30) ∧
    (∃ ev, analyzeSection (.exn "e") 30 = .ok ev) ∧
    ∃ evFail ev2 rep,
      analyzeSection (.badJson "bad") POLICY_ALIGNMENT_MAX_SCORE = .ok evFail ∧
      evFail.score = 0 ∧
      evFail.reasoning = "분석 실패: JSON 파싱 실패: " ++ "bad" ∧
      analyzeSection (.exn "boom") IMPLEMENTATION_READINESS_MAX_SCORE = .ok ev2 ∧
      conductAudit (fun _ => none) (.badJson "bad") (.exn "boom") [] = some rep ∧
      rep.policy = evFail ∧ rep.impl = ev2 ∧
      rep.total = evFail.score + ev2.score := by
  have h := analyzeSection_failure_contained "bad" (.exn "boom") (fun _ => none) []
  exact ⟨by norm_num, h.1 (.exn "e") 30 (by norm_num), h.2.2.2⟩

/-- C9 counterexample: with zero extracted characters the audit does not
fail hard — `conduct_audit("")` still returns a populated report (the code
warns and falls back to prefix-only analysis), even though the vector store
is indeed not built. -/
theorem conductAudit_empty_text_still_reports :
    createVectorStore (fun _ => none) [] = none ∧
    ∃ rep, conductAudit (fun _ => none) (.exn "x") (.exn "y") [] = some rep := by
  constructor
  · rw [createVectorStore, if_pos rfl]
  · obtain ⟨p, i, -, -, hca⟩ :=
      conductAudit_shape (fun _ => none) (.exn "x") (.exn "y") []
    exact ⟨_, hca⟩

/-- C9 (amended): when extraction recovers zero characters the orchestrator
does not index the empty text (`create_vector_store` returns `None` before
any `add_texts` call), but the failure does not propagate to the caller:
`conduct_audit` falls back to prefix-based analysis and still returns a
report whose RAG flag is `false`. -/
theorem conductAudit_empty_text_spec (emb : String → Option (List ℝ))
    (r1 r2 : LLMResp) :
    createVectorStore emb [] = none ∧
    ∃ rep, conductAudit emb r1 r2 [] = some rep ∧ rep.ragUsed = false := by
  have hcv : createVectorStore emb [] = none := by
    rw [createVectorStore, if_pos rfl]
  refine ⟨hcv, ?_⟩
  obtain ⟨p, i, -, -, hca⟩ := conductAudit_shape emb r1 r2 []
  refine ⟨_, hca, ?_⟩
  simp [hcv]

end KOICA
